import Mathlib

/-!
# Verification of the Kalyna block cipher implementation (`kalyna_optimized.c`)

Shallow embedding of the cipher engine of `src/kalyna_optimized.c`
(DSTU 7624:2014, Kalyna).  64-bit machine words are modelled as `Nat`
with explicit reduction `% 2^64` wherever the C code relies on unsigned
wraparound; byte values are `Nat` below `256`.  The cipher state is a
list of `nb` words, round-key schedules are lists of `nr + 1` such
blocks, exactly as in the C context structure.

The constant tables (`sboxes_enc`, `sboxes_dec`, `mds_matrix`,
`mds_inv_matrix`) live in `tables.h`, which is not part of the sources;
the spec treats them as fixed read-only data supplied externally.  They
are therefore abstracted as a `Tables` parameter, and the contracts the
spec states for them (pointwise s-box inversion, `InvMixColumns ∘
MixColumns = id`) appear as hypotheses of the theorems that need them.
-/

namespace Kalyna

/-- `2^64`, the modulus of C `uint64_t` arithmetic. -/
def UINT64_LIMIT : Nat := 2 ^ 64

/-- `kREDUCTION_POLYNOMIAL` from `transformations.h`: `0x011d`. -/
def kREDUCTION_POLYNOMIAL : Nat := 0x011d

/-!
## Codec (`WordsToBytes_Inline` / `BytesToWords_Inline`)

The C code serializes the word-oriented state into its canonical
little-endian byte order by `memcpy` (the big-endian branch reverses
bytes to produce the same canonical layout).  Byte `j` of a 64-bit word
`w` in that layout is `(w >> (8*j)) & 0xFF`, i.e. `w / 256^j % 256`.
-/

/-- The `n` canonical (little-endian) bytes of a word. -/
def wordToBytes : Nat → Nat → List Nat
  | 0, _ => []
  | n + 1, w => w % 256 :: wordToBytes n (w / 256)

/-- Reassemble a little-endian byte list into a word. -/
def bytesToWord : List Nat → Nat
  | [] => 0
  | b :: bs => b + 256 * bytesToWord bs

/-- `WordsToBytes_Inline`: serialize a word list into `8 * length` bytes. -/
def wordsToBytes : List Nat → List Nat
  | [] => []
  | w :: ws => wordToBytes 8 w ++ wordsToBytes ws

/-- `BytesToWords_Inline`: pack a byte list back into `n` words. -/
def bytesToWords : Nat → List Nat → List Nat
  | 0, _ => []
  | n + 1, bs => bytesToWord (bs.take 8) :: bytesToWords n (bs.drop 8)

@[simp] theorem wordToBytes_length (n w : Nat) : (wordToBytes n w).length = n := by
  induction n generalizing w with
  | zero => rfl
  | succ n ih => simp [wordToBytes, ih]

theorem wordToBytes_lt (n w : Nat) : ∀ b ∈ wordToBytes n w, b < 256 := by
  induction n generalizing w with
  | zero => simp [wordToBytes]
  | succ n ih =>
    intro b hb
    simp only [wordToBytes, List.mem_cons] at hb
    rcases hb with h | h
    · subst h; exact Nat.mod_lt _ (by norm_num)
    · exact ih _ b h

theorem bytesToWord_wordToBytes {n w : Nat} (h : w < 256 ^ n) :
    bytesToWord (wordToBytes n w) = w := by
  induction n generalizing w with
  | zero => simp [pow_zero] at h; simp [h, wordToBytes, bytesToWord]
  | succ n ih =>
    have hdiv : w / 256 < 256 ^ n := by
      rw [Nat.div_lt_iff_lt_mul (by norm_num)]
      calc w < 256 ^ (n + 1) := h
        _ = 256 ^ n * 256 := by ring
    simp [wordToBytes, bytesToWord, ih hdiv, Nat.mod_add_div]

theorem wordToBytes_bytesToWord {bs : List Nat} {n : Nat}
    (hlen : bs.length = n) (hlt : ∀ b ∈ bs, b < 256) :
    wordToBytes n (bytesToWord bs) = bs := by
  induction bs generalizing n with
  | nil => simp at hlen; simp [← hlen, wordToBytes]
  | cons b bs ih =>
    cases n with
    | zero => simp at hlen
    | succ n =>
      have hb : b < 256 := hlt b (by simp)
      have h1 : (b + 256 * bytesToWord bs) % 256 = b := by
        rw [Nat.add_mul_mod_self_left, Nat.mod_eq_of_lt hb]
      have h2 : (b + 256 * bytesToWord bs) / 256 = bytesToWord bs := by
        rw [Nat.add_mul_div_left _ _ (by norm_num), Nat.div_eq_of_lt hb, Nat.zero_add]
      simp only [wordToBytes, bytesToWord, h1, h2]
      have := ih (n := n) (by simpa using hlen) (fun x hx => hlt x (by simp [hx]))
      rw [this]

theorem bytesToWord_lt {bs : List Nat} (h : ∀ b ∈ bs, b < 256) :
    bytesToWord bs < 256 ^ bs.length := by
  induction bs with
  | nil => simp [bytesToWord]
  | cons b bs ih =>
    have hb : b < 256 := h b (by simp)
    have ht := ih (fun x hx => h x (by simp [hx]))
    simp only [bytesToWord, List.length_cons, pow_succ]
    calc b + 256 * bytesToWord bs < 256 + 256 * bytesToWord bs := by omega
      _ = 256 * (bytesToWord bs + 1) := by ring
      _ ≤ 256 * 256 ^ bs.length := by
          have : bytesToWord bs + 1 ≤ 256 ^ bs.length := ht
          exact Nat.mul_le_mul_left _ this
      _ = 256 ^ bs.length * 256 := by ring

@[simp] theorem wordsToBytes_length (ws : List Nat) :
    (wordsToBytes ws).length = 8 * ws.length := by
  induction ws with
  | nil => rfl
  | cons w ws ih => simp [wordsToBytes, ih]; ring

theorem wordsToBytes_lt (ws : List Nat) : ∀ b ∈ wordsToBytes ws, b < 256 := by
  induction ws with
  | nil => simp [wordsToBytes]
  | cons w ws ih =>
    intro b hb
    simp only [wordsToBytes, List.mem_append] at hb
    rcases hb with h | h
    · exact wordToBytes_lt 8 w b h
    · exact ih b h

@[simp] theorem bytesToWords_length (n : Nat) (bs : List Nat) :
    (bytesToWords n bs).length = n := by
  induction n generalizing bs with
  | zero => rfl
  | succ n ih => simp [bytesToWords, ih]

theorem bytesToWords_lt (n : Nat) (bs : List Nat) (h : ∀ b ∈ bs, b < 256) :
    ∀ w ∈ bytesToWords n bs, w < UINT64_LIMIT := by
  induction n generalizing bs with
  | zero => simp [bytesToWords]
  | succ n ih =>
    intro w hw
    simp only [bytesToWords, List.mem_cons] at hw
    rcases hw with h' | h'
    · subst h'
      have h8 : ∀ b ∈ bs.take 8, b < 256 := fun b hb => h b (List.mem_of_mem_take hb)
      have := bytesToWord_lt h8
      have hlen : (bs.take 8).length ≤ 8 := by simp
      calc bytesToWord (bs.take 8) < 256 ^ (bs.take 8).length := this
        _ ≤ 256 ^ 8 := Nat.pow_le_pow_right (by norm_num) hlen
        _ = UINT64_LIMIT := by norm_num [UINT64_LIMIT]
    · exact ih (bs.drop 8) (fun b hb => h b (List.mem_of_mem_drop hb)) w h'

theorem bytesToWords_wordsToBytes {ws : List Nat}
    (h : ∀ w ∈ ws, w < UINT64_LIMIT) :
    bytesToWords ws.length (wordsToBytes ws) = ws := by
  induction ws with
  | nil => rfl
  | cons w ws ih =>
    have hw : w < 256 ^ 8 := by
      have := h w (by simp); simpa [UINT64_LIMIT] using this
    have hlen : (wordToBytes 8 w).length = 8 := wordToBytes_length 8 w
    simp only [List.length_cons, bytesToWords, wordsToBytes]
    rw [List.take_left' hlen, List.drop_left' hlen,
        bytesToWord_wordToBytes hw, ih (fun x hx => h x (by simp [hx]))]

theorem wordsToBytes_bytesToWords (n : Nat) {bs : List Nat}
    (hlen : bs.length = 8 * n) (hlt : ∀ b ∈ bs, b < 256) :
    wordsToBytes (bytesToWords n bs) = bs := by
  induction n generalizing bs with
  | zero =>
    simp only [Nat.mul_zero] at hlen
    rw [List.length_eq_zero] at hlen
    simp [bytesToWords, wordsToBytes, hlen]
  | succ n ih =>
    have h8 : (bs.take 8).length = 8 := by
      rw [List.length_take]; omega
    have hdroplen : (bs.drop 8).length = 8 * n := by
      rw [List.length_drop]; omega
    simp only [bytesToWords, wordsToBytes]
    rw [wordToBytes_bytesToWord h8 (fun b hb => hlt b (List.mem_of_mem_take hb)),
        ih hdroplen (fun b hb => hlt b (List.mem_of_mem_drop hb))]
    exact List.take_append_drop 8 bs

/-!
## Constant tables

`tables.h` is not among the sources.  Modelled from the spec: the four
forward and inverse 256-entry substitution tables and the 8×8 MDS matrix
and its inverse are fixed read-only data; the spec's contracts for them
(`InvTable[t][Table[t][x]] == x` and `InvMixColumns(MixColumns(S)) == S`)
become hypotheses of the theorems below.  `senc t b` is
`sboxes_enc[t][b]`, `mds r c` is `mds_matrix[r][c]`, etc.
-/

structure Tables where
  senc : Nat → Nat → Nat
  sdec : Nat → Nat → Nat
  mds : Nat → Nat → Nat
  minv : Nat → Nat → Nat

/-- Each substitution table maps bytes to bytes (`uint8_t` entries). -/
def SboxRange (t : Tables) : Prop :=
  ∀ i b, b < 256 → t.senc i b < 256

/-- The spec's substitution contract: `InvTable[t][Table[t][x]] == x`. -/
def SboxInv (t : Tables) : Prop :=
  ∀ i b, b < 256 → t.sdec i (t.senc i b) = b

/-!
## Substitution layer (`SubBytes` / `InvSubBytes`)

The C code replaces each of the 8 bytes of each state word through
table `byte_index mod 4` and reassembles the word; the mask/shift
expressions are exactly the little-endian byte decomposition of
`wordToBytes`/`bytesToWord`.
-/

/-- Apply substitution table `j % 4` to the byte at position `j`, for a
byte list starting at position `j`. -/
def subBytesList (sb : Nat → Nat → Nat) : Nat → List Nat → List Nat
  | _, [] => []
  | j, b :: bs => sb (j % 4) b :: subBytesList sb (j + 1) bs

/-- One word of `SubBytes`. -/
def subWord (sb : Nat → Nat → Nat) (w : Nat) : Nat :=
  bytesToWord (subBytesList sb 0 (wordToBytes 8 w))

/-- `SubBytes` (with `sb := sboxes_enc`) and `InvSubBytes`
(with `sb := sboxes_dec`). -/
def subBytes (sb : Nat → Nat → Nat) (ws : List Nat) : List Nat :=
  ws.map (subWord sb)

@[simp] theorem subBytesList_length (sb : Nat → Nat → Nat) (j : Nat) (bs : List Nat) :
    (subBytesList sb j bs).length = bs.length := by
  induction bs generalizing j with
  | nil => rfl
  | cons b bs ih => simp [subBytesList, ih]

theorem subBytesList_lt {t : Tables} (hr : SboxRange t) (j : Nat) {bs : List Nat}
    (h : ∀ b ∈ bs, b < 256) : ∀ b ∈ subBytesList t.senc j bs, b < 256 := by
  induction bs generalizing j with
  | nil => simp [subBytesList]
  | cons b bs ih =>
    intro x hx
    simp only [subBytesList, List.mem_cons] at hx
    rcases hx with h' | h'
    · subst h'; exact hr _ b (h b (by simp))
    · exact ih (j + 1) (fun y hy => h y (by simp [hy])) x h'

theorem subBytesList_inv {t : Tables} (hinv : SboxInv t) (j : Nat) {bs : List Nat}
    (h : ∀ b ∈ bs, b < 256) :
    subBytesList t.sdec j (subBytesList t.senc j bs) = bs := by
  induction bs generalizing j with
  | nil => rfl
  | cons b bs ih =>
    simp only [subBytesList]
    rw [hinv _ b (h b (by simp)), ih (j + 1) (fun y hy => h y (by simp [hy]))]

theorem subWord_lt {t : Tables} (hr : SboxRange t) (w : Nat) :
    subWord t.senc w < UINT64_LIMIT := by
  have h := bytesToWord_lt (subBytesList_lt hr 0 (wordToBytes_lt 8 w))
  calc subWord t.senc w < 256 ^ (subBytesList t.senc 0 (wordToBytes 8 w)).length := h
    _ = 256 ^ 8 := by simp
    _ = UINT64_LIMIT := by norm_num [UINT64_LIMIT]

theorem subWord_inv {t : Tables} (hr : SboxRange t) (hinv : SboxInv t)
    {w : Nat} (hw : w < UINT64_LIMIT) :
    subWord t.sdec (subWord t.senc w) = w := by
  have hw' : w < 256 ^ 8 := by simpa [UINT64_LIMIT] using hw
  have hbs : ∀ b ∈ subBytesList t.senc 0 (wordToBytes 8 w), b < 256 :=
    subBytesList_lt hr 0 (wordToBytes_lt 8 w)
  unfold subWord
  rw [wordToBytes_bytesToWord (by simp) hbs, subBytesList_inv hinv 0 (wordToBytes_lt 8 w),
      bytesToWord_wordToBytes hw']

@[simp] theorem subBytes_length (sb : Nat → Nat → Nat) (ws : List Nat) :
    (subBytes sb ws).length = ws.length := by simp [subBytes]

theorem subBytes_lt {t : Tables} (hr : SboxRange t) (ws : List Nat) :
    ∀ w ∈ subBytes t.senc ws, w < UINT64_LIMIT := by
  intro w hw
  simp only [subBytes, List.mem_map] at hw
  obtain ⟨x, _, rfl⟩ := hw
  exact subWord_lt hr x

theorem subBytes_inv {t : Tables} (hr : SboxRange t) (hinv : SboxInv t)
    {ws : List Nat} (hw : ∀ w ∈ ws, w < UINT64_LIMIT) :
    subBytes t.sdec (subBytes t.senc ws) = ws := by
  simp only [subBytes, List.map_map]
  conv_rhs => rw [← List.map_id ws]
  refine List.map_congr_left ?_
  intro w hw'
  exact subWord_inv hr hinv (hw w hw')

/-!
## Permutation layer (`ShiftRows` / `InvShiftRows`)

The C code views the `8 * nb` byte serialization as an 8-row × `nb`-column
matrix, index `row + col * 8`.  The cumulative shift of row `row` is
`row / (8 / nb)` (it increments whenever `row % (8 / nb) == 0 && row > 0`).
`InvShiftRows` is a gather: `nstate[row + col*8] = state[row + (col+shift) % nb * 8]`,
the source index being `invShiftSrc` below.  `ShiftRows` is the scatter
`nstate[row + (col+shift) % nb * 8] = state[row + col*8]`; written as a
gather, output index `row + col'*8` reads from column
`(col' + (nb - shift % nb)) % nb`, which is `shiftSrc` below
(the unique inverse of the `InvShiftRows` index map, see
`shiftSrc_invShiftSrc` / `invShiftSrc_shiftSrc`).
-/

/-- Input index feeding output index `i` of `ShiftRows`. -/
def shiftSrc (nb i : Nat) : Nat :=
  i % 8 + 8 * ((i / 8 + (nb - i % 8 / (8 / nb) % nb)) % nb)

/-- Input index feeding output index `i` of `InvShiftRows`
(verbatim from the source's gather). -/
def invShiftSrc (nb i : Nat) : Nat :=
  i % 8 + 8 * ((i / 8 + i % 8 / (8 / nb)) % nb)

/-- Byte-level `ShiftRows`. -/
def shiftRowsBytes (nb : Nat) (bs : List Nat) : List Nat :=
  (List.range (8 * nb)).map fun i => bs.getD (shiftSrc nb i) 0

/-- Byte-level `InvShiftRows`. -/
def invShiftRowsBytes (nb : Nat) (bs : List Nat) : List Nat :=
  (List.range (8 * nb)).map fun i => bs.getD (invShiftSrc nb i) 0

/-- `ShiftRows`: serialize, permute bytes, re-pack. -/
def shiftRows (nb : Nat) (ws : List Nat) : List Nat :=
  bytesToWords nb (shiftRowsBytes nb (wordsToBytes ws))

/-- `InvShiftRows`. -/
def invShiftRows (nb : Nat) (ws : List Nat) : List Nat :=
  bytesToWords nb (invShiftRowsBytes nb (wordsToBytes ws))

/-- The supported state widths. -/
def NbValid (nb : Nat) : Prop := nb = 2 ∨ nb = 4 ∨ nb = 8

theorem shiftSrc_invShiftSrc {nb : Nat} (hnb : NbValid nb) :
    ∀ i < 8 * nb, invShiftSrc nb i < 8 * nb ∧ shiftSrc nb (invShiftSrc nb i) = i := by
  rcases hnb with h | h | h <;> subst h <;> decide

theorem invShiftSrc_shiftSrc {nb : Nat} (hnb : NbValid nb) :
    ∀ i < 8 * nb, shiftSrc nb i < 8 * nb ∧ invShiftSrc nb (shiftSrc nb i) = i := by
  rcases hnb with h | h | h <;> subst h <;> decide

@[simp] theorem shiftRowsBytes_length (nb : Nat) (bs : List Nat) :
    (shiftRowsBytes nb bs).length = 8 * nb := by simp [shiftRowsBytes]

@[simp] theorem invShiftRowsBytes_length (nb : Nat) (bs : List Nat) :
    (invShiftRowsBytes nb bs).length = 8 * nb := by simp [invShiftRowsBytes]

theorem shiftRowsBytes_lt (nb : Nat) {bs : List Nat} (h : ∀ b ∈ bs, b < 256) :
    ∀ b ∈ shiftRowsBytes nb bs, b < 256 := by
  intro b hb
  simp only [shiftRowsBytes, List.mem_map, List.mem_range] at hb
  obtain ⟨i, _, rfl⟩ := hb
  by_cases hi : shiftSrc nb i < bs.length
  · rw [List.getD_eq_getElem _ _ hi]
    exact h _ (List.getElem_mem hi)
  · rw [List.getD_eq_default _ _ (by omega)]
    norm_num

theorem invShiftRowsBytes_lt (nb : Nat) {bs : List Nat} (h : ∀ b ∈ bs, b < 256) :
    ∀ b ∈ invShiftRowsBytes nb bs, b < 256 := by
  intro b hb
  simp only [invShiftRowsBytes, List.mem_map, List.mem_range] at hb
  obtain ⟨i, _, rfl⟩ := hb
  by_cases hi : invShiftSrc nb i < bs.length
  · rw [List.getD_eq_getElem _ _ hi]
    exact h _ (List.getElem_mem hi)
  · rw [List.getD_eq_default _ _ (by omega)]
    norm_num

theorem invShiftRowsBytes_shiftRowsBytes {nb : Nat} (hnb : NbValid nb)
    {bs : List Nat} (hlen : bs.length = 8 * nb) :
    invShiftRowsBytes nb (shiftRowsBytes nb bs) = bs := by
  apply List.ext_getElem
  · simp [hlen]
  intro i h1 h2
  have hi : i < 8 * nb := by simpa using h1
  obtain ⟨hlt, hcomp⟩ := shiftSrc_invShiftSrc hnb i hi
  simp only [invShiftRowsBytes, shiftRowsBytes, List.getElem_map, List.getElem_range]
  rw [List.getD_eq_getElem _ _ (by simpa using hlt)]
  simp only [List.getElem_map, List.getElem_range]
  rw [hcomp, List.getD_eq_getElem _ _ (by omega)]

@[simp] theorem shiftRows_length (nb : Nat) (ws : List Nat) :
    (shiftRows nb ws).length = nb := by simp [shiftRows]

@[simp] theorem invShiftRows_length (nb : Nat) (ws : List Nat) :
    (invShiftRows nb ws).length = nb := by simp [invShiftRows]

theorem shiftRows_lt (nb : Nat) (ws : List Nat) :
    ∀ w ∈ shiftRows nb ws, w < UINT64_LIMIT :=
  bytesToWords_lt nb _ (shiftRowsBytes_lt nb (wordsToBytes_lt ws))

theorem invShiftRows_lt (nb : Nat) (ws : List Nat) :
    ∀ w ∈ invShiftRows nb ws, w < UINT64_LIMIT :=
  bytesToWords_lt nb _ (invShiftRowsBytes_lt nb (wordsToBytes_lt ws))

theorem invShiftRows_shiftRows {nb : Nat} (hnb : NbValid nb)
    {ws : List Nat} (hlen : ws.length = nb) (hlt : ∀ w ∈ ws, w < UINT64_LIMIT) :
    invShiftRows nb (shiftRows nb ws) = ws := by
  unfold invShiftRows shiftRows
  rw [wordsToBytes_bytesToWords nb (by simp) (shiftRowsBytes_lt nb (wordsToBytes_lt ws)),
      invShiftRowsBytes_shiftRowsBytes hnb (by simp [hlen, Nat.mul_comm]),
      ← hlen, bytesToWords_wordsToBytes hlt]

/-!
## Finite-field arithmetic (`MultiplyGF`)

The fixed 8-iteration double-and-reduce loop, unrolled.  Each iteration
conditionally accumulates `x` into `r` when the low bit of `y` is set
(`gfAcc`), then shifts `x` left one bit XOR-ing in the reduction
polynomial when the shifted-out bit was set (`gfShift`), and shifts `y`
right one bit.  `x` is a `uint8_t` in the C code: the left shift
truncates to 8 bits, and the XOR with the 9-bit reduction polynomial is
likewise truncated, hence the explicit `% 256`.  Iteration `k` therefore
sees `gfShift` applied `k` times to `x` and `y` shifted right `k` times.
-/

/-- `hbit = x & 0x80; x <<= 1; if (hbit == 0x80) x ^= kREDUCTION_POLYNOMIAL;`
on a `uint8_t`. -/
def gfShift (x : Nat) : Nat :=
  if x &&& 0x80 = 0x80 then ((x <<< 1) % 256 ^^^ kREDUCTION_POLYNOMIAL) % 256
  else (x <<< 1) % 256

/-- `if ((y & 0x1) == 1) r ^= x;`. -/
def gfAcc (x y r : Nat) : Nat := if y &&& 0x1 = 1 then r ^^^ x else r

/-- `MultiplyGF(x, y)`: the loop's 8 iterations, innermost first. -/
def multiplyGF (x y : Nat) : Nat :=
  gfAcc (gfShift (gfShift (gfShift (gfShift (gfShift (gfShift (gfShift x)))))))
    (y >>> 1 >>> 1 >>> 1 >>> 1 >>> 1 >>> 1 >>> 1)
    (gfAcc (gfShift (gfShift (gfShift (gfShift (gfShift (gfShift x))))))
      (y >>> 1 >>> 1 >>> 1 >>> 1 >>> 1 >>> 1)
      (gfAcc (gfShift (gfShift (gfShift (gfShift (gfShift x)))))
        (y >>> 1 >>> 1 >>> 1 >>> 1 >>> 1)
        (gfAcc (gfShift (gfShift (gfShift (gfShift x))))
          (y >>> 1 >>> 1 >>> 1 >>> 1)
          (gfAcc (gfShift (gfShift (gfShift x)))
            (y >>> 1 >>> 1 >>> 1)
            (gfAcc (gfShift (gfShift x))
              (y >>> 1 >>> 1)
              (gfAcc (gfShift x)
                (y >>> 1)
                (gfAcc x y 0)))))))

theorem gfShift_lt (x : Nat) : gfShift x < 256 := by
  unfold gfShift
  split <;> exact Nat.mod_lt _ (by norm_num)

theorem gfAcc_lt {x r : Nat} (y : Nat) (hx : x < 256) (hr : r < 256) :
    gfAcc x y r < 256 := by
  unfold gfAcc
  split
  · exact Nat.xor_lt_two_pow (n := 8) hr hx
  · exact hr

theorem multiplyGF_lt {x : Nat} (hx : x < 256) (y : Nat) : multiplyGF x y < 256 :=
  gfAcc_lt _ (gfShift_lt _)
    (gfAcc_lt _ (gfShift_lt _)
      (gfAcc_lt _ (gfShift_lt _)
        (gfAcc_lt _ (gfShift_lt _)
          (gfAcc_lt _ (gfShift_lt _)
            (gfAcc_lt _ (gfShift_lt _)
              (gfAcc_lt _ (gfShift_lt _)
                (gfAcc_lt _ hx (by norm_num))))))))

theorem multiplyGF_zero (x : Nat) : multiplyGF x 0 = 0 := rfl

theorem multiplyGF_one (x : Nat) : multiplyGF x 1 = x := by
  simp [multiplyGF, gfAcc]

set_option maxRecDepth 8000 in
set_option maxHeartbeats 1000000 in
theorem multiplyGF_comm_tri_0 :
    ∀ a < 64, ∀ b < a, multiplyGF a b = multiplyGF b a := by decide

set_option maxRecDepth 8000 in
set_option maxHeartbeats 1000000 in
theorem multiplyGF_comm_tri_1 :
    ∀ a < 64, ∀ b < 64 + a, multiplyGF (64 + a) b = multiplyGF b (64 + a) := by decide

set_option maxRecDepth 8000 in
set_option maxHeartbeats 1000000 in
theorem multiplyGF_comm_tri_2 :
    ∀ a < 64, ∀ b < 128 + a, multiplyGF (128 + a) b = multiplyGF b (128 + a) := by decide

set_option maxRecDepth 8000 in
set_option maxHeartbeats 1000000 in
theorem multiplyGF_comm_tri_3 :
    ∀ a < 64, ∀ b < 192 + a, multiplyGF (192 + a) b = multiplyGF b (192 + a) := by decide

/-- Commutativity below the diagonal, assembled from the four chunks. -/
theorem multiplyGF_comm_lower {a b : Nat} (ha : a < 256) (hba : b < a) :
    multiplyGF a b = multiplyGF b a := by
  by_cases h0 : a < 64
  · exact multiplyGF_comm_tri_0 a h0 b hba
  by_cases h1 : a < 128
  · obtain ⟨c, rfl⟩ : ∃ c, a = 64 + c := ⟨a - 64, by omega⟩
    exact multiplyGF_comm_tri_1 c (by omega) b hba
  by_cases h2 : a < 192
  · obtain ⟨c, rfl⟩ : ∃ c, a = 128 + c := ⟨a - 128, by omega⟩
    exact multiplyGF_comm_tri_2 c (by omega) b hba
  · obtain ⟨c, rfl⟩ : ∃ c, a = 192 + c := ⟨a - 192, by omega⟩
    exact multiplyGF_comm_tri_3 c (by omega) b hba

theorem multiplyGF_comm_of_lt (a b : Nat) (ha : a < 256) (hb : b < 256) :
    multiplyGF a b = multiplyGF b a := by
  rcases Nat.lt_trichotomy a b with h | rfl | h
  · exact (multiplyGF_comm_lower hb h).symm
  · rfl
  · exact multiplyGF_comm_lower ha h

/-!
## Diffusion layer (`MatrixMultiply`, `MixColumns`, `InvMixColumns`)

`MatrixMultiply` serializes the state, then for each column `col`
computes the 8 output bytes `product(row) = ⨁_b MultiplyGF(state[b + col*8],
matrix[row][b])` and reassembles them (`result |= product << (row*8)`,
i.e. `bytesToWord` of the row-indexed byte list since every product is
below 256).
-/

/-- One output byte of `MatrixMultiply`: the GF(2^8) dot product of a
matrix row with a state column, with the fixed 8-iteration inner loop
(`for (b = 7; b >= 0; --b) product ^= MultiplyGF(state[b + col*8],
matrix[row][b])`) unrolled in the C accumulation order. -/
def dotGF (mat : Nat → Nat → Nat) (row : Nat) (colBytes : List Nat) : Nat :=
  0 ^^^ multiplyGF (colBytes.getD 7 0) (mat row 7)
    ^^^ multiplyGF (colBytes.getD 6 0) (mat row 6)
    ^^^ multiplyGF (colBytes.getD 5 0) (mat row 5)
    ^^^ multiplyGF (colBytes.getD 4 0) (mat row 4)
    ^^^ multiplyGF (colBytes.getD 3 0) (mat row 3)
    ^^^ multiplyGF (colBytes.getD 2 0) (mat row 2)
    ^^^ multiplyGF (colBytes.getD 1 0) (mat row 1)
    ^^^ multiplyGF (colBytes.getD 0 0) (mat row 0)

/-- One output word (column) of `MatrixMultiply`: the 8 row products
assembled little-endian (`result |= product << (row * 8)` for rows
7 down to 0; every product is below 256). -/
def matMulWord (mat : Nat → Nat → Nat) (colBytes : List Nat) : Nat :=
  bytesToWord [dotGF mat 0 colBytes, dotGF mat 1 colBytes, dotGF mat 2 colBytes,
    dotGF mat 3 colBytes, dotGF mat 4 colBytes, dotGF mat 5 colBytes,
    dotGF mat 6 colBytes, dotGF mat 7 colBytes]

/-- `MatrixMultiply(ctx, matrix)`. -/
def matrixMultiply (nb : Nat) (mat : Nat → Nat → Nat) (ws : List Nat) : List Nat :=
  (List.range nb).map fun col => matMulWord mat (((wordsToBytes ws).drop (8 * col)).take 8)

@[simp] theorem matrixMultiply_length (nb : Nat) (mat : Nat → Nat → Nat) (ws : List Nat) :
    (matrixMultiply nb mat ws).length = nb := by simp [matrixMultiply]

theorem getD_byte_lt {colBytes : List Nat} (h : ∀ b ∈ colBytes, b < 256) (i : Nat) :
    colBytes.getD i 0 < 256 := by
  by_cases hlt : i < colBytes.length
  · rw [List.getD_eq_getElem _ _ hlt]; exact h _ (List.getElem_mem hlt)
  · rw [List.getD_eq_default _ _ (by omega)]; norm_num

theorem dotGF_lt (mat : Nat → Nat → Nat) (row : Nat) {colBytes : List Nat}
    (h : ∀ b ∈ colBytes, b < 256) : dotGF mat row colBytes < 256 := by
  unfold dotGF
  have hb : ∀ i, colBytes.getD i 0 < 256 := getD_byte_lt h
  have hm : ∀ i, multiplyGF (colBytes.getD i 0) (mat row i) < 256 :=
    fun i => multiplyGF_lt (hb i) _
  have h0 : (0 : Nat) < 256 := by norm_num
  exact Nat.xor_lt_two_pow (n := 8)
    (Nat.xor_lt_two_pow (Nat.xor_lt_two_pow (Nat.xor_lt_two_pow (Nat.xor_lt_two_pow
      (Nat.xor_lt_two_pow (Nat.xor_lt_two_pow (Nat.xor_lt_two_pow h0 (hm 7)) (hm 6))
        (hm 5)) (hm 4)) (hm 3)) (hm 2)) (hm 1)) (hm 0)

theorem matMulWord_lt (mat : Nat → Nat → Nat) {colBytes : List Nat}
    (h : ∀ b ∈ colBytes, b < 256) : matMulWord mat colBytes < UINT64_LIMIT := by
  have hm : ∀ b ∈ [dotGF mat 0 colBytes, dotGF mat 1 colBytes, dotGF mat 2 colBytes,
      dotGF mat 3 colBytes, dotGF mat 4 colBytes, dotGF mat 5 colBytes,
      dotGF mat 6 colBytes, dotGF mat 7 colBytes], b < 256 := by
    intro b hb
    simp only [List.mem_cons, List.not_mem_nil, or_false] at hb
    rcases hb with h' | h' | h' | h' | h' | h' | h' | h' <;> subst h' <;> exact dotGF_lt mat _ h
  have hbw := bytesToWord_lt hm
  have hlen : ([dotGF mat 0 colBytes, dotGF mat 1 colBytes, dotGF mat 2 colBytes,
      dotGF mat 3 colBytes, dotGF mat 4 colBytes, dotGF mat 5 colBytes,
      dotGF mat 6 colBytes, dotGF mat 7 colBytes] : List Nat).length = 8 := rfl
  rw [hlen] at hbw
  have hpow : (256 : Nat) ^ 8 = UINT64_LIMIT := by norm_num [UINT64_LIMIT]
  rw [hpow] at hbw
  exact hbw

theorem matrixMultiply_lt (nb : Nat) (mat : Nat → Nat → Nat) (ws : List Nat) :
    ∀ w ∈ matrixMultiply nb mat ws, w < UINT64_LIMIT := by
  intro w hw
  simp only [matrixMultiply, List.mem_map] at hw
  obtain ⟨col, _, rfl⟩ := hw
  refine matMulWord_lt mat fun b hb => ?_
  exact wordsToBytes_lt ws b (List.mem_of_mem_drop (List.mem_of_mem_take hb))

/-!
## Round-key mixing (`AddRoundKey`, `SubRoundKey`, `XorRoundKey`)

`state[i] = state[i] + k[i]` etc. on `uint64_t`, i.e. modulo `2^64`.
C unsigned subtraction `s - k` is `(s + (2^64 - k % 2^64)) % 2^64`.
The `*Expand` variants of the C code perform the identical word-wise
operation with a raw key block instead of a schedule entry, so they
share these definitions.
-/

/-- `AddRoundKey` / `AddRoundKeyExpand`: word-wise wrapping addition of a
key block into the state. -/
def addRoundKeyW (k s : List Nat) : List Nat :=
  List.zipWith (fun si ki => (si + ki) % UINT64_LIMIT) s k

/-- `SubRoundKey`: word-wise wrapping subtraction. -/
def subRoundKeyW (k s : List Nat) : List Nat :=
  List.zipWith (fun si ki => (si + (UINT64_LIMIT - ki % UINT64_LIMIT)) % UINT64_LIMIT) s k

/-- `XorRoundKey` / `XorRoundKeyExpand`: word-wise XOR. -/
def xorRoundKeyW (k s : List Nat) : List Nat :=
  List.zipWith (fun si ki => si ^^^ ki) s k

/-- A well-formed state: `nb` words, each a 64-bit value. -/
def StateWF (nb : Nat) (s : List Nat) : Prop :=
  s.length = nb ∧ ∀ w ∈ s, w < UINT64_LIMIT

@[simp] theorem addRoundKeyW_length (k s : List Nat) :
    (addRoundKeyW k s).length = min s.length k.length := by simp [addRoundKeyW]

@[simp] theorem subRoundKeyW_length (k s : List Nat) :
    (subRoundKeyW k s).length = min s.length k.length := by simp [subRoundKeyW]

@[simp] theorem xorRoundKeyW_length (k s : List Nat) :
    (xorRoundKeyW k s).length = min s.length k.length := by simp [xorRoundKeyW]

theorem addRoundKeyW_lt (k s : List Nat) : ∀ w ∈ addRoundKeyW k s, w < UINT64_LIMIT := by
  intro w hw
  simp only [addRoundKeyW, List.mem_iff_getElem, List.getElem_zipWith] at hw
  obtain ⟨i, hi, rfl⟩ := hw
  exact Nat.mod_lt _ (by norm_num [UINT64_LIMIT])

theorem subRoundKeyW_lt (k s : List Nat) : ∀ w ∈ subRoundKeyW k s, w < UINT64_LIMIT := by
  intro w hw
  simp only [subRoundKeyW, List.mem_iff_getElem, List.getElem_zipWith] at hw
  obtain ⟨i, hi, rfl⟩ := hw
  exact Nat.mod_lt _ (by norm_num [UINT64_LIMIT])

theorem xorRoundKeyW_lt {k s : List Nat} (hk : ∀ w ∈ k, w < UINT64_LIMIT)
    (hs : ∀ w ∈ s, w < UINT64_LIMIT) : ∀ w ∈ xorRoundKeyW k s, w < UINT64_LIMIT := by
  intro w hw
  simp only [xorRoundKeyW, List.mem_iff_getElem, List.getElem_zipWith] at hw
  obtain ⟨i, hi, rfl⟩ := hw
  simp only [List.length_zipWith, lt_min_iff] at hi
  exact Nat.xor_lt_two_pow (hs _ (List.getElem_mem hi.1)) (hk _ (List.getElem_mem hi.2))

/-- One word of `SubRoundKey ∘ AddRoundKey`: exact unsigned 64-bit
wraparound cancels. -/
theorem subWord_addWord (si ki : Nat) (h : si < UINT64_LIMIT) :
    ((si + ki) % UINT64_LIMIT + (UINT64_LIMIT - ki % UINT64_LIMIT)) % UINT64_LIMIT = si := by
  unfold UINT64_LIMIT at *
  omega

theorem subRoundKeyW_addRoundKeyW {k s : List Nat} (hlen : k.length = s.length)
    (hs : ∀ w ∈ s, w < UINT64_LIMIT) :
    subRoundKeyW k (addRoundKeyW k s) = s := by
  induction s generalizing k with
  | nil => simp [addRoundKeyW, subRoundKeyW]
  | cons a s ih =>
    cases k with
    | nil => simp at hlen
    | cons b k =>
      have hlen' : k.length = s.length := by simpa using hlen
      have htail := ih hlen' (fun w hw => hs w (by simp [hw]))
      simp only [addRoundKeyW, subRoundKeyW, List.zipWith_cons_cons]
      rw [subWord_addWord a b (hs a (by simp))]
      simp only [addRoundKeyW, subRoundKeyW] at htail
      rw [htail]

theorem xorRoundKeyW_xorRoundKeyW {k s : List Nat} (hlen : k.length = s.length) :
    xorRoundKeyW k (xorRoundKeyW k s) = s := by
  induction s generalizing k with
  | nil => simp [xorRoundKeyW]
  | cons a s ih =>
    cases k with
    | nil => simp at hlen
    | cons b k =>
      have hlen' : k.length = s.length := by simpa using hlen
      have htail := ih hlen'
      simp only [xorRoundKeyW, List.zipWith_cons_cons]
      rw [Nat.xor_cancel_right]
      simp only [xorRoundKeyW] at htail
      rw [htail]

/-!
## Round function (`EncipherRound` / `DecipherRound`)
-/

/-- `EncipherRound`: SubBytes, ShiftRows, MixColumns. -/
def encipherRound (t : Tables) (nb : Nat) (s : List Nat) : List Nat :=
  matrixMultiply nb t.mds (shiftRows nb (subBytes t.senc s))

/-- `DecipherRound`: InvMixColumns, InvShiftRows, InvSubBytes. -/
def decipherRound (t : Tables) (nb : Nat) (s : List Nat) : List Nat :=
  subBytes t.sdec (invShiftRows nb (matrixMultiply nb t.minv s))

/-- The spec's diffusion contract for the fixed MDS matrices:
`InvMixColumns(MixColumns(S)) == S` for all well-formed states. -/
def MixInv (t : Tables) (nb : Nat) : Prop :=
  ∀ s, StateWF nb s → matrixMultiply nb t.minv (matrixMultiply nb t.mds s) = s

theorem encipherRound_wf (t : Tables) (nb : Nat) {s : List Nat} :
    StateWF nb (encipherRound t nb s) :=
  ⟨by simp [encipherRound], matrixMultiply_lt _ _ _⟩

theorem decipherRound_round {t : Tables} {nb : Nat} (hnb : NbValid nb)
    (hr : SboxRange t) (hinv : SboxInv t) (hmix : MixInv t nb)
    {s : List Nat} (hs : StateWF nb s) :
    decipherRound t nb (encipherRound t nb s) = s := by
  obtain ⟨hlen, hlt⟩ := hs
  unfold decipherRound encipherRound
  rw [hmix _ ⟨by simp, shiftRows_lt _ _⟩,
      invShiftRows_shiftRows hnb (by simp [hlen]) (subBytes_lt hr s),
      subBytes_inv hr hinv hlt]

/-!
## Encipher / Decipher drivers (`KalynaEncipher` / `KalynaDecipher`)

The C `for` loops are modelled by structural recursion on a fuel
argument (the loop condition is tested each iteration exactly as in the
source; `fuel = nr` always suffices since the loops run `nr - 1` times).
Round keys are consulted as `ks.getD round []`, matching
`ctx->round_keys[round]`.
-/

/-- `for (round = 1; round < nr; ++round) { EncipherRound; XorRoundKey(round); }` -/
def encLoop (t : Tables) (nb nr : Nat) (ks : List (List Nat)) :
    Nat → Nat → List Nat → List Nat
  | 0, _, s => s
  | fuel + 1, round, s =>
    if round < nr then
      encLoop t nb nr ks fuel (round + 1) (xorRoundKeyW (ks.getD round []) (encipherRound t nb s))
    else s

/-- `KalynaEncipher` (the state buffer is fully overwritten by the
initial `memcpy`; see `kalynaEncipherBuf` for the buffer-passing form). -/
def kalynaEncipher (t : Tables) (nb nr : Nat) (ks : List (List Nat)) (pt : List Nat) :
    List Nat :=
  let s := addRoundKeyW (ks.getD 0 []) pt
  let s := encLoop t nb nr ks nr 1 s
  addRoundKeyW (ks.getD nr []) (encipherRound t nb s)

/-- `for (round = nr - 1; round > 0; --round) { DecipherRound; XorRoundKey(round); }` -/
def decLoop (t : Tables) (nb : Nat) (ks : List (List Nat)) :
    Nat → Nat → List Nat → List Nat
  | 0, _, s => s
  | fuel + 1, round, s =>
    if round > 0 then
      decLoop t nb ks fuel (round - 1) (xorRoundKeyW (ks.getD round []) (decipherRound t nb s))
    else s

/-- `KalynaDecipher`. -/
def kalynaDecipher (t : Tables) (nb nr : Nat) (ks : List (List Nat)) (ct : List Nat) :
    List Nat :=
  let s := subRoundKeyW (ks.getD nr []) ct
  let s := decLoop t nb ks nr (nr - 1) s
  subRoundKeyW (ks.getD 0 []) (decipherRound t nb s)

/-- The spec's description of the interior rounds, as a fold over an
explicit round list. -/
def encRounds (t : Tables) (nb : Nat) (ks : List (List Nat)) (l : List Nat) (s : List Nat) :
    List Nat :=
  l.foldl (fun s r => xorRoundKeyW (ks.getD r []) (encipherRound t nb s)) s

/-- Interior decipher rounds as a fold. -/
def decRounds (t : Tables) (nb : Nat) (ks : List (List Nat)) (l : List Nat) (s : List Nat) :
    List Nat :=
  l.foldl (fun s r => xorRoundKeyW (ks.getD r []) (decipherRound t nb s)) s

/-- `Encipher` as the spec sentence words it: load plaintext,
`AddRoundKey(0)`, rounds `1 .. nr-1` of `EncipherRound` + `XorRoundKey`,
a final `EncipherRound`, `AddRoundKey(nr)`. -/
def specEncipher (t : Tables) (nb nr : Nat) (ks : List (List Nat)) (pt : List Nat) :
    List Nat :=
  addRoundKeyW (ks.getD nr [])
    (encipherRound t nb
      (encRounds t nb ks (List.range' 1 (nr - 1)) (addRoundKeyW (ks.getD 0 []) pt)))

theorem encLoop_eq_encRounds (t : Tables) (nb nr : Nat) (ks : List (List Nat)) :
    ∀ fuel round s, nr - round ≤ fuel →
      encLoop t nb nr ks fuel round s = encRounds t nb ks (List.range' round (nr - round)) s := by
  intro fuel
  induction fuel with
  | zero =>
    intro round s h
    have : nr - round = 0 := by omega
    simp [encLoop, encRounds, this]
  | succ fuel ih =>
    intro round s h
    by_cases hlt : round < nr
    · have hsub : nr - round = (nr - (round + 1)) + 1 := by omega
      rw [encLoop, if_pos hlt, ih (round + 1) _ (by omega), hsub, List.range'_succ]
      simp [encRounds]
    · have : nr - round = 0 := by omega
      rw [encLoop, if_neg hlt]
      simp [encRounds, this]

theorem decLoop_eq_decRounds (t : Tables) (nb : Nat) (ks : List (List Nat)) :
    ∀ fuel round s, round ≤ fuel →
      decLoop t nb ks fuel round s = decRounds t nb ks (List.range' 1 round).reverse s := by
  intro fuel
  induction fuel with
  | zero =>
    intro round s h
    have : round = 0 := by omega
    simp [decLoop, decRounds, this]
  | succ fuel ih =>
    intro round s h
    by_cases hpos : round > 0
    · obtain ⟨m, rfl⟩ : ∃ m, round = m + 1 := ⟨round - 1, by omega⟩
      rw [decLoop, if_pos hpos]
      simp only [Nat.add_sub_cancel]
      rw [ih m _ (by omega), List.range'_1_concat, List.reverse_append]
      simp only [List.reverse_cons, List.reverse_nil, List.nil_append, List.singleton_append,
        decRounds, List.foldl_cons, Nat.add_comm 1 m]
    · have : round = 0 := by omega
      rw [decLoop, if_neg hpos]
      simp [decRounds, this]

/-- A well-formed round-key block. -/
def KeyWF (nb : Nat) (k : List Nat) : Prop :=
  k.length = nb ∧ ∀ w ∈ k, w < UINT64_LIMIT

theorem addRoundKeyW_wf {nb : Nat} {k s : List Nat} (hk : k.length = nb)
    (hs : s.length = nb) : StateWF nb (addRoundKeyW k s) :=
  ⟨by simp [hs, hk], addRoundKeyW_lt k s⟩

theorem xorRoundKeyW_wf {nb : Nat} {k s : List Nat} (hk : KeyWF nb k)
    (hs : StateWF nb s) : StateWF nb (xorRoundKeyW k s) :=
  ⟨by simp [hs.1, hk.1], xorRoundKeyW_lt hk.2 hs.2⟩

theorem encRounds_wf {t : Tables} {nb : Nat} {ks : List (List Nat)} :
    ∀ l s, (∀ r ∈ l, KeyWF nb (ks.getD r [])) → StateWF nb s →
      StateWF nb (encRounds t nb ks l s) := by
  intro l
  induction l with
  | nil => intro s _ hs; simpa [encRounds]
  | cons a l ih =>
    intro s hl _
    simp only [encRounds, List.foldl_cons]
    exact ih _ (fun r' hr' => hl r' (by simp [hr']))
      (xorRoundKeyW_wf (hl a (by simp)) (encipherRound_wf t nb))

/-- Interior decipher rounds undo interior encipher rounds (run in
reverse), modulo one trailing `EncipherRound`. -/
theorem decRounds_encRounds {t : Tables} {nb : Nat} (hnb : NbValid nb)
    (hr : SboxRange t) (hinv : SboxInv t) (hmix : MixInv t nb)
    (ks : List (List Nat)) :
    ∀ l s, (∀ r ∈ l, KeyWF nb (ks.getD r [])) → StateWF nb s →
      decRounds t nb ks l.reverse (encipherRound t nb (encRounds t nb ks l s)) =
        encipherRound t nb s := by
  intro l
  induction l using List.reverseRecOn with
  | nil => intro s _ _; simp [encRounds, decRounds]
  | append_singleton l r ih =>
    intro s hl hs
    have hkr : KeyWF nb (ks.getD r []) := hl r (by simp)
    have hC : StateWF nb (encRounds t nb ks l s) :=
      encRounds_wf l s (fun r' hr' => hl r' (by simp [hr'])) hs
    have hX : StateWF nb
        (xorRoundKeyW (ks.getD r []) (encipherRound t nb (encRounds t nb ks l s))) :=
      xorRoundKeyW_wf hkr (encipherRound_wf t nb)
    have happ : encRounds t nb ks (l ++ [r]) s =
        xorRoundKeyW (ks.getD r []) (encipherRound t nb (encRounds t nb ks l s)) := by
      simp [encRounds]
    rw [happ, List.reverse_append]
    simp only [List.reverse_cons, List.reverse_nil, List.nil_append, List.singleton_append]
    show decRounds t nb ks (r :: l.reverse) _ = _
    simp only [decRounds, List.foldl_cons]
    rw [decipherRound_round hnb hr hinv hmix hX,
        xorRoundKeyW_xorRoundKeyW (by rw [hkr.1, (encipherRound_wf t nb (s := encRounds t nb ks l s)).1])]
    exact ih s (fun r' hr' => hl r' (by simp [hr'])) hs

/-- Full-cipher inverse for any well-formed round-key schedule. -/
theorem kalynaDecipher_kalynaEncipher {t : Tables} {nb nr : Nat} (hnb : NbValid nb)
    (hr : SboxRange t) (hinv : SboxInv t) (hmix : MixInv t nb)
    {ks : List (List Nat)} (hks : ∀ r, r ≤ nr → KeyWF nb (ks.getD r []))
    {pt : List Nat} (hpt : StateWF nb pt) :
    kalynaDecipher t nb nr ks (kalynaEncipher t nb nr ks pt) = pt := by
  have hk0 : KeyWF nb (ks.getD 0 []) := hks 0 (by omega)
  have hknr : KeyWF nb (ks.getD nr []) := hks nr (by omega)
  have hs0 : StateWF nb (addRoundKeyW (ks.getD 0 []) pt) := addRoundKeyW_wf hk0.1 hpt.1
  have hmem : ∀ r ∈ List.range' 1 (nr - 1), KeyWF nb (ks.getD r []) := by
    intro r hr'
    rw [List.mem_range'_1] at hr'
    exact hks r (by omega)
  simp only [kalynaEncipher, kalynaDecipher]
  rw [encLoop_eq_encRounds t nb nr ks nr 1 _ (by omega),
      decLoop_eq_decRounds t nb ks nr (nr - 1) _ (by omega)]
  set C := encRounds t nb ks (List.range' 1 (nr - 1)) (addRoundKeyW (ks.getD 0 []) pt) with hCdef
  have hCwf : StateWF nb C := encRounds_wf _ _ hmem hs0
  have hEwf : StateWF nb (encipherRound t nb C) := encipherRound_wf t nb
  rw [subRoundKeyW_addRoundKeyW (by rw [hknr.1, hEwf.1]) hEwf.2,
      decRounds_encRounds hnb hr hinv hmix ks _ _ hmem hs0,
      decipherRound_round hnb hr hinv hmix hs0,
      subRoundKeyW_addRoundKeyW (by rw [hk0.1, hpt.1]) hpt.2]

/-!
## Key schedule (`KeyExpandKt`, `KeyExpandEven`, `KeyExpandOdd`)
-/

/-- `ShiftLeft`: shift every word left one bit (`uint64_t`, so mod `2^64`). -/
def shiftLeftW (v : List Nat) : List Nat :=
  v.map fun w => (w <<< 1) % UINT64_LIMIT

/-- `Rotate(state_size, v)`: move the first word to the end (the lists
below always carry exactly `state_size` words). -/
def rotateW (v : List Nat) : List Nat := v.drop 1 ++ v.take 1

/-- Byte rotation of `RotateLeft`: `bytes := bytes[k..] ++ bytes[0..k)`. -/
def rotBytesLeft (k : Nat) (bs : List Nat) : List Nat := bs.drop k ++ bs.take k

/-- `RotateLeft(nb, v)`: rotate the `nb*8`-byte serialization left by
`rotate_bytes = 2*nb + 3` bytes and re-pack. -/
def rotateLeftRK (nb : Nat) (v : List Nat) : List Nat :=
  bytesToWords nb (rotBytesLeft (2 * nb + 3) (wordsToBytes v))

/-- The five-operation derivation block shared by `KeyExpandKt` and both
arms of `KeyExpandEven` (lines 341-346, 370-374 and 392-396 of the
source): `AddRoundKeyExpand`, `EncipherRound`, `XorRoundKeyExpand`,
`EncipherRound`, `AddRoundKeyExpand` — in `KeyExpandEven` the key block
is `kt_round = kt + tmv` throughout. -/
def deriveRK (t : Tables) (nb : Nat) (kt tmv window : List Nat) : List Nat :=
  let ktRound := addRoundKeyW tmv kt
  addRoundKeyW ktRound
    (encipherRound t nb
      (xorRoundKeyW ktRound
        (encipherRound t nb (addRoundKeyW ktRound window))))

/-- `KeyExpandKt`: state is zeroed except `state[0] = nb + nk + 1`, then
`Add(k0); Enc; Xor(k1); Enc; Add(k0); Enc`. -/
def keyExpandKt (t : Tables) (nb nk : Nat) (key : List Nat) : List Nat :=
  let state0 := (List.replicate nb 0).set 0 (nb + nk + 1)
  let k0 := key.take nb
  let k1 := if nb = nk then key.take nb else (key.drop nb).take nb
  encipherRound t nb
    (addRoundKeyW k0
      (encipherRound t nb
        (xorRoundKeyW k1
          (encipherRound t nb (addRoundKeyW k0 state0)))))

/-- Initial `tmv` counter: `0x0001000100010001` in each of the `nb` words. -/
def tmvInit (nb : Nat) : List Nat := List.replicate nb 0x0001000100010001

/-- The `while(1)` loop of `KeyExpandEven`, recursing on fuel (the loop
terminates when `round` reaches `nr`; `nr + 1` units of fuel always
suffice since `round` grows by at least 2 per iteration).  Note the
unconditional `Rotate` of `initial_data` (by one word) at the end of
every iteration — also when `nk == nb`. -/
def keyExpandEvenLoop (t : Tables) (nb nk nr : Nat) (kt : List Nat) :
    Nat → Nat → List Nat → List Nat → List (List Nat) → List (List Nat)
  | 0, _, _, _, rks => rks
  | fuel + 1, round, tmv, idata, rks =>
    let rks1 := rks.set round (deriveRK t nb kt tmv (idata.take nb))
    if nr = round then rks1
    else if nk ≠ nb then
      let tmv2 := shiftLeftW tmv
      let rks2 := rks1.set (round + 2) (deriveRK t nb kt tmv2 ((idata.drop nb).take nb))
      if nr = round + 2 then rks2
      else
        keyExpandEvenLoop t nb nk nr kt fuel (round + 4) (shiftLeftW tmv2) (rotateW idata) rks2
    else
      keyExpandEvenLoop t nb nk nr kt fuel (round + 2) (shiftLeftW tmv) (rotateW idata) rks1

/-- `KeyExpandEven(key, kt, ctx)`. -/
def keyExpandEven (t : Tables) (nb nk nr : Nat) (key kt : List Nat)
    (rks : List (List Nat)) : List (List Nat) :=
  keyExpandEvenLoop t nb nk nr kt (nr + 1) 0 (tmvInit nb) (key.take nk) rks

/-- `KeyExpandOdd`: `for (i = 1; i < nr; i += 2) { copy rk[i-1]; RotateLeft; }`. -/
def keyExpandOdd (nb nr : Nat) (rks : List (List Nat)) : List (List Nat) :=
  (List.range' 1 (nr / 2) 2).foldl
    (fun rks i => rks.set i (rotateLeftRK nb (rks.getD (i - 1) []))) rks

/-- `KalynaKeyExpand`: the three stages, starting from the zero-allocated
schedule of `nr + 1` blocks produced by `KalynaInit`'s `calloc`. -/
def kalynaKeyExpand (t : Tables) (nb nk nr : Nat) (key : List Nat) : List (List Nat) :=
  let kt := keyExpandKt t nb nk key
  keyExpandOdd nb nr
    (keyExpandEven t nb nk nr key kt (List.replicate (nr + 1) (List.replicate nb 0)))

theorem getD_set_ne {α : Type} (l : List α) (d : α) {i j : Nat} (h : i ≠ j) (v : α) :
    (l.set i v).getD j d = l.getD j d := by
  rw [List.getD_eq_getElem?_getD, List.getD_eq_getElem?_getD, List.getElem?_set_ne h]

theorem getD_set_self {α : Type} (l : List α) (d : α) {i : Nat} (h : i < l.length) (v : α) :
    (l.set i v).getD i d = v := by
  rw [List.getD_eq_getElem?_getD, List.getElem?_set_self h]
  rfl

@[simp] theorem keyExpandEvenLoop_length (t : Tables) (nb nk nr : Nat) (kt : List Nat) :
    ∀ fuel round tmv idata rks,
      (keyExpandEvenLoop t nb nk nr kt fuel round tmv idata rks).length = rks.length := by
  intro fuel
  induction fuel with
  | zero => intro round tmv idata rks; rfl
  | succ fuel ih =>
    intro round tmv idata rks
    rw [keyExpandEvenLoop]
    split
    · simp
    · split
      · split
        · simp
        · rw [ih]; simp
      · rw [ih]; simp

@[simp] theorem keyExpandOdd_length (nb nr : Nat) (rks : List (List Nat)) :
    (keyExpandOdd nb nr rks).length = rks.length := by
  unfold keyExpandOdd
  generalize List.range' 1 (nr / 2) 2 = l
  induction l generalizing rks with
  | nil => rfl
  | cons i l ih =>
    simp only [List.foldl_cons]
    rw [ih, List.length_set]

@[simp] theorem kalynaKeyExpand_length (t : Tables) (nb nk nr : Nat) (key : List Nat) :
    (kalynaKeyExpand t nb nk nr key).length = nr + 1 := by
  simp [kalynaKeyExpand, keyExpandEven]

@[simp] theorem encipherRound_length (t : Tables) (nb : Nat) (s : List Nat) :
    (encipherRound t nb s).length = nb := by simp [encipherRound]

@[simp] theorem shiftLeftW_length (v : List Nat) : (shiftLeftW v).length = v.length := by
  simp [shiftLeftW]

theorem deriveRK_wf {t : Tables} {nb : Nat} {kt tmv : List Nat}
    (hkt : kt.length = nb) (htmv : tmv.length = nb) (window : List Nat) :
    KeyWF nb (deriveRK t nb kt tmv window) := by
  refine ⟨?_, addRoundKeyW_lt _ _⟩
  simp [deriveRK, hkt, htmv]

theorem keyExpandKt_wf (t : Tables) (nb nk : Nat) (key : List Nat) :
    KeyWF nb (keyExpandKt t nb nk key) :=
  ⟨by simp [keyExpandKt], matrixMultiply_lt _ _ _⟩

theorem rotateLeftRK_wf (nb : Nat) (v : List Nat) : KeyWF nb (rotateLeftRK nb v) := by
  refine ⟨by simp [rotateLeftRK], ?_⟩
  refine bytesToWords_lt nb _ fun b hb => ?_
  simp only [rotBytesLeft, List.mem_append] at hb
  rcases hb with h | h
  · exact wordsToBytes_lt v b (List.mem_of_mem_drop h)
  · exact wordsToBytes_lt v b (List.mem_of_mem_take h)

theorem keyExpandEvenLoop_wf {t : Tables} {nb nk nr : Nat} {kt : List Nat}
    (hkt : kt.length = nb) :
    ∀ fuel round tmv idata rks, tmv.length = nb → (∀ k ∈ rks, KeyWF nb k) →
      ∀ k ∈ keyExpandEvenLoop t nb nk nr kt fuel round tmv idata rks, KeyWF nb k := by
  intro fuel
  induction fuel with
  | zero => intro round tmv idata rks _ hrks; exact hrks
  | succ fuel ih =>
    intro round tmv idata rks htmv hrks
    have hset1 : ∀ k ∈ rks.set round (deriveRK t nb kt tmv (idata.take nb)), KeyWF nb k := by
      intro k hk
      rcases List.mem_or_eq_of_mem_set hk with h | h
      · exact hrks k h
      · subst h; exact deriveRK_wf hkt htmv _
    rw [keyExpandEvenLoop]
    split
    · exact hset1
    · split
      · split
        · intro k hk
          rcases List.mem_or_eq_of_mem_set hk with h | h
          · exact hset1 k h
          · subst h; exact deriveRK_wf hkt (by simp [htmv]) _
        · refine ih _ _ _ _ (by simp [htmv]) ?_
          intro k hk
          rcases List.mem_or_eq_of_mem_set hk with h | h
          · exact hset1 k h
          · subst h; exact deriveRK_wf hkt (by simp [htmv]) _
      · exact ih _ _ _ _ (by simp [htmv]) hset1

theorem keyExpandOdd_wf {nb nr : Nat} {rks : List (List Nat)}
    (hrks : ∀ k ∈ rks, KeyWF nb k) :
    ∀ k ∈ keyExpandOdd nb nr rks, KeyWF nb k := by
  unfold keyExpandOdd
  generalize List.range' 1 (nr / 2) 2 = l
  induction l generalizing rks with
  | nil => exact hrks
  | cons i l ih =>
    simp only [List.foldl_cons]
    refine ih ?_
    intro k hk
    rcases List.mem_or_eq_of_mem_set hk with h | h
    · exact hrks k h
    · subst h; exact rotateLeftRK_wf nb _

theorem kalynaKeyExpand_wf (t : Tables) (nb nk nr : Nat) (key : List Nat) :
    ∀ k ∈ kalynaKeyExpand t nb nk nr key, KeyWF nb k := by
  unfold kalynaKeyExpand keyExpandEven
  refine keyExpandOdd_wf (keyExpandEvenLoop_wf (keyExpandKt_wf t nb nk key).1 _ _ _ _ _
    (by simp [tmvInit]) ?_)
  intro k hk
  rw [List.eq_of_mem_replicate hk]
  refine ⟨by simp, fun w hw => ?_⟩
  rw [List.eq_of_mem_replicate hw]
  norm_num [UINT64_LIMIT]

theorem kalynaKeyExpand_getD_wf (t : Tables) (nb nk nr : Nat) (key : List Nat) :
    ∀ r, r ≤ nr → KeyWF nb ((kalynaKeyExpand t nb nk nr key).getD r []) := by
  intro r hrle
  have hlt : r < (kalynaKeyExpand t nb nk nr key).length := by
    rw [kalynaKeyExpand_length]; omega
  rw [List.getD_eq_getElem _ _ hlt]
  exact kalynaKeyExpand_wf t nb nk nr key _ (List.getElem_mem hlt)

/-!
## Context initialization (`KalynaInit`)

`KalynaInit` validates the `(block_size, key_size)` pair and derives
`(nb, nk, nr)`.  Allocation of the state and round-key buffers (and the
corresponding failure paths) has no behavioral content beyond producing
zeroed buffers, which `kalynaKeyExpand` receives explicitly above; the
claim under verification assumes allocation succeeds.  The constants are
those of `transformations.h`; note the literal `256` in the source's
second branch (identical to `kBLOCK_256`).
-/

def kBITS_IN_WORD : Nat := 64
def kBLOCK_128 : Nat := 128
def kBLOCK_256 : Nat := 256
def kBLOCK_512 : Nat := 512
def kKEY_128 : Nat := 128
def kKEY_256 : Nat := 256
def kKEY_512 : Nat := 512
def kNR_128 : Nat := 10
def kNR_256 : Nat := 14
def kNR_512 : Nat := 18

/-- `KalynaInit(block_size, key_size)`: `some (nb, nk, nr)` on the five
valid configurations, `NULL` otherwise. -/
def kalynaInit (block_size key_size : Nat) : Option (Nat × Nat × Nat) :=
  if block_size = kBLOCK_128 then
    if key_size = kKEY_128 then
      some (kBLOCK_128 / kBITS_IN_WORD, kKEY_128 / kBITS_IN_WORD, kNR_128)
    else if key_size = kKEY_256 then
      some (kBLOCK_128 / kBITS_IN_WORD, kKEY_256 / kBITS_IN_WORD, kNR_256)
    else none
  else if block_size = 256 then
    if key_size = kKEY_256 then
      some (kBLOCK_256 / kBITS_IN_WORD, kKEY_256 / kBITS_IN_WORD, kNR_256)
    else if key_size = kKEY_512 then
      some (kBLOCK_256 / kBITS_IN_WORD, kKEY_512 / kBITS_IN_WORD, kNR_512)
    else none
  else if block_size = kBLOCK_512 then
    if key_size = kKEY_512 then
      some (kBLOCK_512 / kBITS_IN_WORD, kKEY_512 / kBITS_IN_WORD, kNR_512)
    else none
  else none

/-- The claim's table of valid configurations: the five pairs with their
`(nb, nk, nr)` values, everything else rejected. -/
def claimedConfig (block_size key_size : Nat) : Option (Nat × Nat × Nat) :=
  if block_size = 128 ∧ key_size = 128 then some (2, 2, 10)
  else if block_size = 128 ∧ key_size = 256 then some (2, 4, 14)
  else if block_size = 256 ∧ key_size = 256 then some (4, 4, 14)
  else if block_size = 256 ∧ key_size = 512 then some (4, 8, 18)
  else if block_size = 512 ∧ key_size = 512 then some (8, 8, 18)
  else none

/-!
## Identity tables

A concrete `Tables` instance satisfying the spec's table contracts,
used to instantiate the table-parametric theorems at concrete inputs:
identity substitution tables and the identity matrix (a valid MDS-slot
occupant for the contracts, since `MultiplyGF(x,1) = x` and
`MultiplyGF(x,0) = 0`).
-/

def idTables : Tables where
  senc := fun _ b => b
  sdec := fun _ b => b
  mds := fun r c => if r = c then 1 else 0
  minv := fun r c => if r = c then 1 else 0

theorem idTables_sboxRange : SboxRange idTables := fun _ _ h => h

theorem idTables_sboxInv : SboxInv idTables := fun _ _ _ => rfl

theorem wordToBytes_eight (w : Nat) : wordToBytes 8 w =
    [w % 256, w / 256 % 256, w / 256 / 256 % 256, w / 256 / 256 / 256 % 256,
     w / 256 / 256 / 256 / 256 % 256, w / 256 / 256 / 256 / 256 / 256 % 256,
     w / 256 / 256 / 256 / 256 / 256 / 256 % 256,
     w / 256 / 256 / 256 / 256 / 256 / 256 / 256 % 256] := rfl

theorem sliceCol (ws : List Nat) : ∀ col, col < ws.length →
    ((wordsToBytes ws).drop (8 * col)).take 8 = wordToBytes 8 (ws.getD col 0) := by
  induction ws with
  | nil => intro col h; simp at h
  | cons w ws ih =>
    intro col hcol
    cases col with
    | zero =>
      simp only [wordsToBytes, Nat.mul_zero, List.drop_zero, List.getD_cons_zero]
      exact List.take_left' (wordToBytes_length 8 w)
    | succ col =>
      have h8 : 8 * (col + 1) = 8 + 8 * col := by ring
      simp only [wordsToBytes, h8, List.getD_cons_succ]
      rw [← List.drop_drop, List.drop_left' (wordToBytes_length 8 w)]
      exact ih col (by simpa using hcol)

theorem matMulWord_id {w : Nat} (hw : w < UINT64_LIMIT) :
    matMulWord (fun r c => if r = c then 1 else 0) (wordToBytes 8 w) = w := by
  have hw' : w < 2 ^ 64 := hw
  unfold matMulWord
  rw [wordToBytes_eight]
  simp [dotGF, multiplyGF_one, multiplyGF_zero, bytesToWord]
  omega

theorem matrixMultiply_id {nb : Nat} {ws : List Nat} (hws : StateWF nb ws) :
    matrixMultiply nb (fun r c => if r = c then 1 else 0) ws = ws := by
  obtain ⟨hlen, hlt⟩ := hws
  apply List.ext_getElem
  · simp [hlen]
  intro col h1 h2
  simp only [matrixMultiply, List.getElem_map, List.getElem_range]
  have hcol : col < ws.length := h2
  rw [sliceCol ws col hcol, List.getD_eq_getElem _ _ hcol]
  exact matMulWord_id (hlt _ (List.getElem_mem hcol))

theorem idTables_mixInv (nb : Nat) : MixInv idTables nb := by
  intro s hs
  show matrixMultiply nb (fun r c => if r = c then 1 else 0)
    (matrixMultiply nb (fun r c => if r = c then 1 else 0) s) = s
  rw [matrixMultiply_id hs, matrixMultiply_id hs]

/-!
## Buffer-passing drivers

`KalynaEncipher` starts with `memcpy(ctx->state, plaintext, nb * 8)`:
the first `nb` words of the context's state buffer are overwritten from
the plaintext before any transformation reads the state.  `loadState`
models that `memcpy` into a prior buffer. -/

/-- `memcpy(buf, src, n * 8)`: overwrite the first `n` words of `buf`. -/
def loadState (buf src : List Nat) (n : Nat) : List Nat :=
  src.take n ++ buf.drop n

/-- `KalynaEncipher` with the context's prior state buffer explicit. -/
def kalynaEncipherBuf (t : Tables) (nb nr : Nat) (ks : List (List Nat))
    (stateBuf pt : List Nat) : List Nat :=
  let s := loadState stateBuf pt nb
  let s := addRoundKeyW (ks.getD 0 []) s
  let s := encLoop t nb nr ks nr 1 s
  addRoundKeyW (ks.getD nr []) (encipherRound t nb s)

/-- `KalynaDecipher` with the context's prior state buffer explicit. -/
def kalynaDecipherBuf (t : Tables) (nb nr : Nat) (ks : List (List Nat))
    (stateBuf ct : List Nat) : List Nat :=
  let s := loadState stateBuf ct nb
  let s := subRoundKeyW (ks.getD nr []) s
  let s := decLoop t nb ks nr (nr - 1) s
  subRoundKeyW (ks.getD 0 []) (decipherRound t nb s)

/-!
## Checked operation and lifecycle state

Modelled from the spec: a conforming implementation tracks whether the
context has completed a successful key expansion (`Created` vs
`KeyExpanded`) and rejects `Encipher`/`Decipher` in `Created` with an
`InvalidState` error instead of operating on zeroed keys.  The C context
carries no such flag; its behavior on a `Created` context is
`kalynaEncipher` applied to the all-zero schedule left by `calloc`. -/

inductive KalynaError where
  | invalidState
deriving DecidableEq

/-- Modelled from the spec: `Encipher` guarded by the lifecycle state. -/
def encipherChecked (keyExpanded : Bool) (t : Tables) (nb nr : Nat)
    (ks : List (List Nat)) (pt : List Nat) : Except KalynaError (List Nat) :=
  if keyExpanded then .ok (kalynaEncipher t nb nr ks pt) else .error .invalidState

/-- The all-zero round-key schedule a freshly initialized context holds
(`calloc` in `KalynaInit`). -/
def zeroSchedule (nb nr : Nat) : List (List Nat) :=
  List.replicate (nr + 1) (List.replicate nb 0)

/-!
## The claim's version of the even key-schedule stage

Modelled from the claim's words for comparison with `keyExpandEvenLoop`:
identical derivation of the even round keys, but at the end of each
iteration `initial_data` is rotated left by `nb` words, and only when
`nk != nb`; when `nk == nb` it is left unrotated.  (The source instead
calls `Rotate(nk, initial_data)` unconditionally, rotating by one
word.) -/
def keyExpandEvenLoopClaim (t : Tables) (nb nk nr : Nat) (kt : List Nat) :
    Nat → Nat → List Nat → List Nat → List (List Nat) → List (List Nat)
  | 0, _, _, _, rks => rks
  | fuel + 1, round, tmv, idata, rks =>
    let rks1 := rks.set round (deriveRK t nb kt tmv (idata.take nb))
    if nr = round then rks1
    else if nk ≠ nb then
      let tmv2 := shiftLeftW tmv
      let rks2 := rks1.set (round + 2) (deriveRK t nb kt tmv2 ((idata.drop nb).take nb))
      if nr = round + 2 then rks2
      else
        keyExpandEvenLoopClaim t nb nk nr kt fuel (round + 4) (shiftLeftW tmv2)
          (idata.drop nb ++ idata.take nb) rks2
    else
      keyExpandEvenLoopClaim t nb nk nr kt fuel (round + 2) (shiftLeftW tmv) idata rks1

/-- The claim's `KeyExpandEven`. -/
def keyExpandEvenClaim (t : Tables) (nb nk nr : Nat) (key kt : List Nat)
    (rks : List (List Nat)) : List (List Nat) :=
  keyExpandEvenLoopClaim t nb nk nr kt (nr + 1) 0 (tmvInit nb) (key.take nk) rks

/-- `MixColumns`: multiply by the fixed MDS matrix. -/
def mixColumns (t : Tables) (nb : Nat) (s : List Nat) : List Nat :=
  matrixMultiply nb t.mds s

/-- `InvMixColumns`: multiply by the inverse matrix. -/
def invMixColumns (t : Tables) (nb : Nat) (s : List Nat) : List Nat :=
  matrixMultiply nb t.minv s

/-!
## Characterization of the odd key-schedule stage
-/

theorem oddFold_getD_untouched (nb : Nat) :
    ∀ (l : List Nat) (rks : List (List Nat)) (j : Nat), (∀ i ∈ l, j ≠ i) →
      (l.foldl (fun rks i => rks.set i (rotateLeftRK nb (rks.getD (i - 1) []))) rks).getD j [] =
        rks.getD j [] := by
  intro l
  induction l with
  | nil => intro rks j _; rfl
  | cons i l ih =>
    intro rks j hj
    simp only [List.foldl_cons]
    rw [ih _ j (fun i' hi' => hj i' (by simp [hi']))]
    exact getD_set_ne _ _ (fun h => hj i (by simp) h.symm) _

theorem oddFold_getD_mem (nb : Nat) :
    ∀ (m s : Nat) (rks : List (List Nat)) (i : Nat), i ∈ List.range' s m 2 →
      i < rks.length →
      ((List.range' s m 2).foldl
          (fun rks i => rks.set i (rotateLeftRK nb (rks.getD (i - 1) []))) rks).getD i [] =
        rotateLeftRK nb (rks.getD (i - 1) []) := by
  intro m
  induction m with
  | zero => intro s rks i hi; simp [List.range'] at hi
  | succ m ih =>
    intro s rks i hi hlen
    rw [List.range'_succ] at hi ⊢
    simp only [List.foldl_cons]
    rcases List.mem_cons.mp hi with rfl | htail
    · rw [oddFold_getD_untouched nb _ _ i ?_]
      · exact getD_set_self _ _ hlen _
      · intro i' hi'
        rw [List.mem_range'] at hi'
        obtain ⟨k, _, rfl⟩ := hi'
        omega
    · have hge : s + 2 ≤ i := by
        rw [List.mem_range'] at htail
        obtain ⟨k, _, rfl⟩ := htail
        omega
      rw [ih (s + 2) _ i htail (by simpa using hlen),
          getD_set_ne _ _ (by omega) _]

theorem keyExpandOdd_getD_odd {nb nr : Nat} {rks : List (List Nat)} {i : Nat}
    (hodd : i % 2 = 1) (hlt : i < nr) (hlen : i < rks.length) :
    (keyExpandOdd nb nr rks).getD i [] = rotateLeftRK nb (rks.getD (i - 1) []) := by
  unfold keyExpandOdd
  refine oddFold_getD_mem nb (nr / 2) 1 rks i ?_ hlen
  rw [List.mem_range']
  exact ⟨(i - 1) / 2, by omega, by omega⟩

theorem keyExpandOdd_getD_even {nb nr : Nat} {rks : List (List Nat)} {j : Nat}
    (heven : j % 2 = 0) :
    (keyExpandOdd nb nr rks).getD j [] = rks.getD j [] := by
  unfold keyExpandOdd
  refine oddFold_getD_untouched nb _ rks j fun i hi => ?_
  rw [List.mem_range'] at hi
  obtain ⟨k, _, rfl⟩ := hi
  omega

/-- The five supported `(nb, nk, nr)` configurations. -/
def ConfigValid (nb nk nr : Nat) : Prop :=
  (nb = 2 ∧ nk = 2 ∧ nr = 10) ∨ (nb = 2 ∧ nk = 4 ∧ nr = 14) ∨
  (nb = 4 ∧ nk = 4 ∧ nr = 14) ∨ (nb = 4 ∧ nk = 8 ∧ nr = 18) ∨
  (nb = 8 ∧ nk = 8 ∧ nr = 18)

theorem configValid_nb {nb nk nr : Nat} (h : ConfigValid nb nk nr) : NbValid nb := by
  rcases h with ⟨h, _, _⟩ | ⟨h, _, _⟩ | ⟨h, _, _⟩ | ⟨h, _, _⟩ | ⟨h, _, _⟩ <;>
    simp [NbValid, h]

/-!
## The claims
-/

/-- C2.  `KalynaEncipher` performs exactly the spec's sequence: load the
plaintext, `AddRoundKey(0)`, then for each round `1 .. nr-1` an
`EncipherRound` followed by `XorRoundKey(round)`, one final
`EncipherRound`, `AddRoundKey(nr)`, and the resulting state is the
ciphertext.  The C `for` loop (`kalynaEncipher`) equals the spec's
explicit round-list fold (`specEncipher`) for every configuration,
schedule and plaintext. -/
theorem kalynaEncipher_eq_specEncipher (t : Tables) (nb nr : Nat)
    (ks : List (List Nat)) (pt : List Nat) :
    kalynaEncipher t nb nr ks pt = specEncipher t nb nr ks pt := by
  simp only [kalynaEncipher, specEncipher]
  rw [encLoop_eq_encRounds t nb nr ks nr 1 _ (by omega)]

/-- C4.  After the key schedule completes, every odd-indexed round key
`i < nr` is the preceding round key's `nb*8`-byte serialization rotated
left by `2*nb + 3` bytes (`rotateLeftRK`), with no further
encipherment. -/
theorem kalynaKeyExpand_odd_keys (t : Tables) (nb nk nr : Nat) (key : List Nat)
    (i : Nat) (hodd : i % 2 = 1) (hlt : i < nr) :
    (kalynaKeyExpand t nb nk nr key).getD i [] =
      rotateLeftRK nb ((kalynaKeyExpand t nb nk nr key).getD (i - 1) []) := by
  unfold kalynaKeyExpand
  rw [keyExpandOdd_getD_odd hodd hlt (by simp [keyExpandEven]; omega),
      keyExpandOdd_getD_even (by omega)]

/-- C4 witness: configuration 128/128, key `[1, 2]`, round key 1. -/
theorem kalynaKeyExpand_odd_keys_witness :
    (kalynaKeyExpand idTables 2 2 10 [1, 2]).getD 1 [] =
      rotateLeftRK 2 ((kalynaKeyExpand idTables 2 2 10 [1, 2]).getD 0 []) :=
  kalynaKeyExpand_odd_keys idTables 2 2 10 [1, 2] 1 (by decide) (by decide)

/-- C5.  `KalynaInit` rejects every `(block_size, key_size)` pair outside
the five valid combinations and, on the five valid pairs, yields exactly
the claimed `(nb, nk, nr)` triples `(2,2,10)`, `(2,4,14)`, `(4,4,14)`,
`(4,8,18)`, `(8,8,18)`. -/
theorem kalynaInit_eq_claimedConfig (block_size key_size : Nat) :
    kalynaInit block_size key_size = claimedConfig block_size key_size := by
  unfold kalynaInit claimedConfig kBLOCK_128 kBLOCK_256 kBLOCK_512 kKEY_128 kKEY_256
    kKEY_512 kNR_128 kNR_256 kNR_512 kBITS_IN_WORD
  split_ifs <;> first | rfl | omega

/-- C7.  `MultiplyGF` is commutative on bytes, has `1` as right identity
and `0` as right annihilator. -/
theorem multiplyGF_properties (a b : Nat) (ha : a < 256) (hb : b < 256) :
    multiplyGF a b = multiplyGF b a ∧ multiplyGF a 1 = a ∧ multiplyGF a 0 = 0 :=
  ⟨multiplyGF_comm_of_lt a b ha hb, multiplyGF_one a, multiplyGF_zero a⟩

/-- C7 witness: bytes 3 and 5. -/
theorem multiplyGF_properties_witness :
    multiplyGF 3 5 = multiplyGF 5 3 ∧ multiplyGF 3 1 = 3 ∧ multiplyGF 3 0 = 0 :=
  multiplyGF_properties 3 5 (by decide) (by decide)

/-- C1.  For every supported configuration, `nk`-word key and `nb`-word
plaintext, after `KalynaKeyExpand` has completed,
`KalynaDecipher(KalynaEncipher(P)) = P` word for word (under the spec's
contracts for the external substitution and MDS tables). -/
theorem kalyna_roundtrip (t : Tables) (nb nk nr : Nat) (key pt : List Nat)
    (hcfg : ConfigValid nb nk nr) (hr : SboxRange t) (hinv : SboxInv t)
    (hmix : MixInv t nb) (hkey : key.length = nk)
    (hkeylt : ∀ w ∈ key, w < UINT64_LIMIT)
    (hpt : pt.length = nb) (hptlt : ∀ w ∈ pt, w < UINT64_LIMIT) :
    kalynaDecipher t nb nr (kalynaKeyExpand t nb nk nr key)
      (kalynaEncipher t nb nr (kalynaKeyExpand t nb nk nr key) pt) = pt :=
  kalynaDecipher_kalynaEncipher (configValid_nb hcfg) hr hinv hmix
    (kalynaKeyExpand_getD_wf t nb nk nr key) ⟨hpt, hptlt⟩

/-- C1 witness: configuration 128/128, key `[1, 2]`, plaintext `[3, 4]`. -/
theorem kalyna_roundtrip_witness :
    kalynaDecipher idTables 2 10 (kalynaKeyExpand idTables 2 2 10 [1, 2])
      (kalynaEncipher idTables 2 10 (kalynaKeyExpand idTables 2 2 10 [1, 2]) [3, 4]) =
      [3, 4] :=
  kalyna_roundtrip idTables 2 2 10 [1, 2] [3, 4] (Or.inl ⟨rfl, rfl, rfl⟩) idTables_sboxRange
    idTables_sboxInv (idTables_mixInv 2) rfl (by decide) rfl (by decide)

/-- C6.  `EncipherRound` is SubBytes, ShiftRows, MixColumns in that
order; `DecipherRound` is InvMixColumns, InvShiftRows, InvSubBytes; and
they are mutual inverses on every `nb`-word state (`nb ∈ {2,4,8}`),
under the spec's table contracts. -/
theorem roundFunction_properties (t : Tables) (nb : Nat) (s : List Nat)
    (hnb : NbValid nb) (hr : SboxRange t) (hinv : SboxInv t) (hmix : MixInv t nb)
    (hlen : s.length = nb) (hlt : ∀ w ∈ s, w < UINT64_LIMIT) :
    encipherRound t nb s = mixColumns t nb (shiftRows nb (subBytes t.senc s)) ∧
    decipherRound t nb s = subBytes t.sdec (invShiftRows nb (invMixColumns t nb s)) ∧
    decipherRound t nb (encipherRound t nb s) = s :=
  ⟨rfl, rfl, decipherRound_round hnb hr hinv hmix ⟨hlen, hlt⟩⟩

/-- C6 witness: `nb = 2`, state `[1, 2]`. -/
theorem roundFunction_properties_witness :
    encipherRound idTables 2 [1, 2] =
      mixColumns idTables 2 (shiftRows 2 (subBytes idTables.senc [1, 2])) ∧
    decipherRound idTables 2 [1, 2] =
      subBytes idTables.sdec (invShiftRows 2 (invMixColumns idTables 2 [1, 2])) ∧
    decipherRound idTables 2 (encipherRound idTables 2 [1, 2]) = [1, 2] :=
  roundFunction_properties idTables 2 [1, 2] (Or.inl rfl) idTables_sboxRange
    idTables_sboxInv (idTables_mixInv 2) rfl (by decide)

/-- C8.  `AddRoundKey` adds and `SubRoundKey` subtracts the round-key
block word-wise with exact unsigned 64-bit wraparound, and
`SubRoundKey ∘ AddRoundKey` restores the state. -/
theorem addSubRoundKey_properties (state rk : List Nat)
    (hlen : rk.length = state.length)
    (hs : ∀ w ∈ state, w < UINT64_LIMIT) (hk : ∀ w ∈ rk, w < UINT64_LIMIT) :
    (∀ i, i < state.length →
      (addRoundKeyW rk state).getD i 0 =
        (state.getD i 0 + rk.getD i 0) % UINT64_LIMIT) ∧
    (∀ i, i < state.length →
      ((subRoundKeyW rk state).getD i 0 : Int) =
        ((state.getD i 0 : Int) - (rk.getD i 0 : Int)) % ((2 : Int) ^ 64)) ∧
    subRoundKeyW rk (addRoundKeyW rk state) = state := by
  refine ⟨?_, ?_, subRoundKeyW_addRoundKeyW hlen hs⟩
  · intro i hi
    have hzi : i < (addRoundKeyW rk state).length := by
      simp only [addRoundKeyW_length]; omega
    rw [List.getD_eq_getElem _ _ hzi, List.getD_eq_getElem _ _ hi,
        List.getD_eq_getElem _ _ (by omega)]
    simp [addRoundKeyW]
  · intro i hi
    have hzi : i < (subRoundKeyW rk state).length := by
      simp only [subRoundKeyW_length]; omega
    have hsw : state.getD i 0 < UINT64_LIMIT := by
      rw [List.getD_eq_getElem _ _ hi]
      exact hs _ (List.getElem_mem hi)
    have hkw : rk.getD i 0 < UINT64_LIMIT := by
      rw [List.getD_eq_getElem _ _ (show i < rk.length by omega)]
      exact hk _ (List.getElem_mem (show i < rk.length by omega))
    rw [List.getD_eq_getElem _ _ hzi] at *
    rw [List.getD_eq_getElem _ _ hi] at *
    rw [List.getD_eq_getElem _ _ (show i < rk.length by omega)] at *
    have hval : (subRoundKeyW rk state)[i] =
        (state[i] + (UINT64_LIMIT - rk[i] % UINT64_LIMIT)) % UINT64_LIMIT := by
      simp [subRoundKeyW]
    rw [hval]
    have hW : UINT64_LIMIT = 18446744073709551616 := by norm_num [UINT64_LIMIT]
    have hWI : ((2 : Int) ^ 64) = 18446744073709551616 := by norm_num
    rw [hW] at *
    rw [hWI]
    omega

/-- C8 witness: state `[5]`, round key `[7]`. -/
theorem addSubRoundKey_properties_witness :
    (∀ i, i < ([5] : List Nat).length →
      (addRoundKeyW [7] [5]).getD i 0 =
        (([5] : List Nat).getD i 0 + ([7] : List Nat).getD i 0) % UINT64_LIMIT) ∧
    (∀ i, i < ([5] : List Nat).length →
      ((subRoundKeyW [7] [5]).getD i 0 : Int) =
        ((([5] : List Nat).getD i 0 : Int) - (([7] : List Nat).getD i 0 : Int)) %
          ((2 : Int) ^ 64)) ∧
    subRoundKeyW [7] (addRoundKeyW [7] [5]) = [5] :=
  addSubRoundKey_properties [5] [7] rfl (by decide) (by decide)

/-- C3 counterexample.  The even key-schedule stage of the source
differs from the claim's description (rotate `initial_data` by `nb`
words, and only when `nk ≠ nb`) on both a `nk = nb` configuration
(128/128) and a `nk = 2*nb` configuration (128/256): the source rotates
by one word, unconditionally. -/
theorem keyExpandEven_rotation_counterexample :
    (keyExpandEven idTables 2 2 10 [1, 2] (keyExpandKt idTables 2 2 [1, 2])
        (zeroSchedule 2 10) ≠
      keyExpandEvenClaim idTables 2 2 10 [1, 2] (keyExpandKt idTables 2 2 [1, 2])
        (zeroSchedule 2 10)) ∧
    (keyExpandEven idTables 2 4 14 [1, 2, 3, 4] (keyExpandKt idTables 2 4 [1, 2, 3, 4])
        (zeroSchedule 2 14) ≠
      keyExpandEvenClaim idTables 2 4 14 [1, 2, 3, 4] (keyExpandKt idTables 2 4 [1, 2, 3, 4])
        (zeroSchedule 2 14)) := by
  constructor <;> decide

/-- C3 (amended).  At the end of each iteration of the even-key loop the
source left-shifts every `tmv` word by one bit (twice when the iteration
derived two keys, once in the middle and once at the end) and rotates
`initial_data` left by exactly one word — unconditionally, also when
`nk = nb`. -/
theorem keyExpandEvenLoop_rotates_one_word (t : Tables) (nb nk nr : Nat)
    (kt : List Nat) (fuel round : Nat) (tmv idata : List Nat)
    (rks : List (List Nat)) (hne : nr ≠ round) :
    (nk = nb →
      keyExpandEvenLoop t nb nk nr kt (fuel + 1) round tmv idata rks =
        keyExpandEvenLoop t nb nk nr kt fuel (round + 2) (shiftLeftW tmv)
          (idata.drop 1 ++ idata.take 1)
          (rks.set round (deriveRK t nb kt tmv (idata.take nb)))) ∧
    (nk ≠ nb → nr ≠ round + 2 →
      keyExpandEvenLoop t nb nk nr kt (fuel + 1) round tmv idata rks =
        keyExpandEvenLoop t nb nk nr kt fuel (round + 4) (shiftLeftW (shiftLeftW tmv))
          (idata.drop 1 ++ idata.take 1)
          ((rks.set round (deriveRK t nb kt tmv (idata.take nb))).set (round + 2)
            (deriveRK t nb kt (shiftLeftW tmv) ((idata.drop nb).take nb)))) := by
  constructor
  · intro hnkb
    simp only [keyExpandEvenLoop]
    rw [if_neg hne, if_neg (not_not_intro hnkb)]
    rfl
  · intro hnkb hne2
    simp only [keyExpandEvenLoop]
    rw [if_neg hne, if_pos hnkb, if_neg hne2]
    rfl

/-- C3 (amended) witness: one `nk = nb` instance and one `nk ≠ nb`
instance of the loop-step equation. -/
theorem keyExpandEvenLoop_rotates_one_word_witness :
    (keyExpandEvenLoop idTables 2 2 10 [0, 0] 3 0 [3, 5] [7, 9] (zeroSchedule 2 10) =
      keyExpandEvenLoop idTables 2 2 10 [0, 0] 2 2 (shiftLeftW [3, 5])
        (List.drop 1 [7, 9] ++ List.take 1 [7, 9])
        ((zeroSchedule 2 10).set 0 (deriveRK idTables 2 [0, 0] [3, 5] (List.take 2 [7, 9])))) ∧
    (keyExpandEvenLoop idTables 2 4 14 [0, 0] 3 0 [3, 5] [7, 9, 11, 13] (zeroSchedule 2 14) =
      keyExpandEvenLoop idTables 2 4 14 [0, 0] 2 4 (shiftLeftW (shiftLeftW [3, 5]))
        (List.drop 1 [7, 9, 11, 13] ++ List.take 1 [7, 9, 11, 13])
        (((zeroSchedule 2 14).set 0
            (deriveRK idTables 2 [0, 0] [3, 5] (List.take 2 [7, 9, 11, 13]))).set 2
          (deriveRK idTables 2 [0, 0] (shiftLeftW [3, 5])
            (List.take 2 (List.drop 2 [7, 9, 11, 13]))))) :=
  ⟨(keyExpandEvenLoop_rotates_one_word idTables 2 2 10 [0, 0] 2 0 [3, 5] [7, 9]
      (zeroSchedule 2 10) (by decide)).1 rfl,
   (keyExpandEvenLoop_rotates_one_word idTables 2 4 14 [0, 0] 2 0 [3, 5] [7, 9, 11, 13]
      (zeroSchedule 2 14) (by decide)).2 (by decide) (by decide)⟩

theorem zeroSchedule_getD_wf (nb nr : Nat) :
    ∀ r, r ≤ nr → KeyWF nb ((zeroSchedule nb nr).getD r []) := by
  intro r hrle
  have hlt : r < (zeroSchedule nb nr).length := by simp [zeroSchedule]; omega
  rw [List.getD_eq_getElem _ _ hlt]
  have hmem := List.getElem_mem hlt
  rw [List.eq_of_mem_replicate hmem]
  refine ⟨by simp, fun w hw => ?_⟩
  rw [List.eq_of_mem_replicate hw]
  norm_num [UINT64_LIMIT]

set_option maxRecDepth 10000 in
set_option maxHeartbeats 1000000 in
/-- C9 counterexample.  On a context that has not completed key
expansion (round keys still the `calloc` zeros), the source's
`KalynaEncipher` raises nothing: it produces a well-defined ciphertext
(here distinct from the plaintext) from which `KalynaDecipher` recovers
the plaintext — whereas the claimed conforming behavior
(`encipherChecked` in state `Created`) is an `InvalidState` error. -/
theorem encipher_unexpanded_counterexample :
    encipherChecked false idTables 4 14 (zeroSchedule 4 14) [65536, 0, 0, 0] =
      .error .invalidState ∧
    kalynaEncipher idTables 4 14 (zeroSchedule 4 14) [65536, 0, 0, 0] ≠ [65536, 0, 0, 0] ∧
    kalynaDecipher idTables 4 14 (zeroSchedule 4 14)
      (kalynaEncipher idTables 4 14 (zeroSchedule 4 14) [65536, 0, 0, 0]) =
      [65536, 0, 0, 0] :=
  ⟨rfl, by decide, by decide⟩

/-- C9 (amended).  The source performs no lifecycle check: invoking the
cipher on a context whose schedule is still the all-zero allocation
silently enciphers with those zeroed round keys (and deciphering with
the same zeroed schedule still recovers the plaintext). -/
theorem encipher_unexpanded_amended (t : Tables) (nb nr : Nat) (pt : List Nat)
    (hnb : NbValid nb) (hr : SboxRange t) (hinv : SboxInv t) (hmix : MixInv t nb)
    (hpt : pt.length = nb) (hlt : ∀ w ∈ pt, w < UINT64_LIMIT) :
    kalynaDecipher t nb nr (zeroSchedule nb nr)
      (kalynaEncipher t nb nr (zeroSchedule nb nr) pt) = pt :=
  kalynaDecipher_kalynaEncipher hnb hr hinv hmix (zeroSchedule_getD_wf nb nr) ⟨hpt, hlt⟩

/-- C9 (amended) witness. -/
theorem encipher_unexpanded_amended_witness :
    kalynaDecipher idTables 2 10 (zeroSchedule 2 10)
      (kalynaEncipher idTables 2 10 (zeroSchedule 2 10) [17, 23]) = [17, 23] :=
  encipher_unexpanded_amended idTables 2 10 [17, 23] (Or.inl rfl) idTables_sboxRange
    idTables_sboxInv (idTables_mixInv 2) rfl (by decide)

/-- C10.  The ciphertext depends only on the plaintext argument (and the
schedule): the initial `memcpy` fully overwrites the context's state
buffer, so two invocations with the same plaintext agree regardless of
the buffer's prior contents, and both agree with the state-free form;
symmetrically for `KalynaDecipher`. -/
theorem stateBuffer_noninterference (t : Tables) (nb nr : Nat)
    (ks : List (List Nat)) (buf1 buf2 pt ct : List Nat)
    (hb1 : buf1.length = nb) (hb2 : buf2.length = nb)
    (hpt : pt.length = nb) (hct : ct.length = nb) :
    (kalynaEncipherBuf t nb nr ks buf1 pt = kalynaEncipherBuf t nb nr ks buf2 pt) ∧
    (kalynaEncipherBuf t nb nr ks buf1 pt = kalynaEncipher t nb nr ks pt) ∧
    (kalynaDecipherBuf t nb nr ks buf1 ct = kalynaDecipherBuf t nb nr ks buf2 ct) ∧
    (kalynaDecipherBuf t nb nr ks buf1 ct = kalynaDecipher t nb nr ks ct) := by
  have hload : ∀ buf : List Nat, buf.length = nb → ∀ src : List Nat, src.length = nb →
      loadState buf src nb = src := by
    intro buf hbuf src hsrc
    unfold loadState
    rw [List.drop_eq_nil_of_le (by omega), List.append_nil,
        List.take_of_length_le (by omega)]
  simp only [kalynaEncipherBuf, kalynaDecipherBuf, kalynaEncipher, kalynaDecipher]
  rw [hload buf1 hb1 pt hpt, hload buf2 hb2 pt hpt, hload buf1 hb1 ct hct,
      hload buf2 hb2 ct hct]
  exact ⟨rfl, rfl, rfl, rfl⟩

/-- C10 witness: two different prior buffers, `nb = 2`. -/
theorem stateBuffer_noninterference_witness :
    (kalynaEncipherBuf idTables 2 10 (zeroSchedule 2 10) [5, 6] [1, 2] =
      kalynaEncipherBuf idTables 2 10 (zeroSchedule 2 10) [8, 9] [1, 2]) ∧
    (kalynaEncipherBuf idTables 2 10 (zeroSchedule 2 10) [5, 6] [1, 2] =
      kalynaEncipher idTables 2 10 (zeroSchedule 2 10) [1, 2]) ∧
    (kalynaDecipherBuf idTables 2 10 (zeroSchedule 2 10) [5, 6] [3, 4] =
      kalynaDecipherBuf idTables 2 10 (zeroSchedule 2 10) [8, 9] [3, 4]) ∧
    (kalynaDecipherBuf idTables 2 10 (zeroSchedule 2 10) [5, 6] [3, 4] =
      kalynaDecipher idTables 2 10 (zeroSchedule 2 10) [3, 4]) :=
  stateBuffer_noninterference idTables 2 10 (zeroSchedule 2 10) [5, 6] [8, 9]
    [1, 2] [3, 4] rfl rfl rfl rfl

end Kalyna
